import Mathlib

/-!
Verification development for the rollup web-scraper core
(repository tnypxl/rollup).

Go strings are modelled as lists of characters (`Str`); Go maps together
with one concrete iteration order are modelled as association lists.
Each definition carries a comment naming the Go source location it embeds.
-/

namespace Rollup

/-- Go strings, modelled as lists of unicode characters. -/
abbrev Str := List Char

/-- Convenience conversion from a Lean string literal to `Str`. -/
def str (s : String) : Str := s.data

/-- Go's unicode.IsSpace: the White_Space code points used by
strings.TrimSpace. -/
def goIsSpace (c : Char) : Bool :=
  let n := c.toNat
  n = 0x20 || n = 0x9 || n = 0xa || n = 0xb || n = 0xc || n = 0xd ||
  n = 0x85 || n = 0xa0 || n = 0x1680 ||
  (0x2000 ≤ n && n ≤ 0x200a) ||
  n = 0x2028 || n = 0x2029 || n = 0x202f || n = 0x205f || n = 0x3000

/-- Trim characters satisfying `p` from both ends of `s`
(Go's strings.TrimFunc / strings.Trim with a cutset test). -/
def trimBy (p : Char → Bool) (s : Str) : Str := List.rdropWhile p (s.dropWhile p)

/-- Go's strings.TrimSpace. -/
def trimSpace (s : Str) : Str := trimBy goIsSpace s

/-- Go's strings.ReplaceAll(s, a backslash-r backslash-n pair, a single newline):
every carriage-return that is immediately followed by a newline is dropped. -/
def replaceCRLF : Str → Str
  | [] => []
  | [c] => [c]
  | c :: d :: rest =>
    if c = '\r' ∧ d = '\n' then '\n' :: replaceCRLF rest
    else c :: replaceCRLF (d :: rest)

/-- Go's strings.ReplaceAll(s, a lone carriage-return, a newline). -/
def replaceCR (s : Str) : Str := s.map (fun c => if c = '\r' then '\n' else c)

/-- Go's strings.Split generalised to a character test: splitting the empty
string yields one empty field, like strings.Split("", sep). -/
def splitOnP (p : Char → Bool) : Str → List Str
  | [] => [[]]
  | c :: rest =>
    if p c then [] :: splitOnP p rest
    else
      match splitOnP p rest with
      | [] => [[c]]
      | l :: ls => (c :: l) :: ls

/-- Go's strings.Join with a one-character separator. -/
def joinWith (c : Char) : List Str → Str
  | [] => []
  | [l] => l
  | l :: l2 :: ls => l ++ c :: joinWith c (l2 :: ls)

/-- Character test for the newline separator. -/
def isNl (c : Char) : Bool := c = '\n'

/-- Normalization tail of ExtractContentWithCSS
(internal/scraper/scraper.go lines 610-625, identical in the
unnamed/part_001 variant lines 665-680): trim outer whitespace, rewrite
CRLF and lone CR to newline, trim every line, and trim boundary newlines. -/
def normalizeContent (s : Str) : Str :=
  let s2 := replaceCR (replaceCRLF (trimSpace s))
  let lines := (splitOnP isNl s2).map trimSpace
  trimBy isNl (joinWith '\n' lines)

/-! Generic lemmas about the string utilities. -/

theorem dropWhile_eq_self_of_head {α : Type} {p : α → Bool} {l : List α}
    (h : ∀ c ∈ l.head?, p c = false) : l.dropWhile p = l := by
  cases l with
  | nil => rfl
  | cons c r =>
    have hc : p c = false := h c rfl
    simp [List.dropWhile, hc]

theorem rdropWhile_eq_self_of_getLast {α : Type} {p : α → Bool} {l : List α}
    (h : ∀ c ∈ l.getLast?, p c = false) : List.rdropWhile p l = l := by
  rw [List.rdropWhile_eq_self_iff]
  intro hl
  have := h (l.getLast hl) (by rw [List.getLast?_eq_getLast_of_ne_nil hl]; rfl)
  simp [this]

theorem trimBy_eq_self {p : Char → Bool} {l : Str}
    (h1 : ∀ c ∈ l.head?, p c = false) (h2 : ∀ c ∈ l.getLast?, p c = false) :
    trimBy p l = l := by
  rw [trimBy, dropWhile_eq_self_of_head h1, rdropWhile_eq_self_of_getLast h2]

theorem head_dropWhile_false {α : Type} {p : α → Bool} {l : List α} {c : α}
    (hc : c ∈ (l.dropWhile p).head?) : p c = false := by
  induction l with
  | nil => cases hc
  | cons a r ih =>
    cases hpa : p a with
    | true =>
      rw [List.dropWhile_cons_of_pos hpa] at hc
      exact ih hc
    | false =>
      rw [List.dropWhile_cons_of_neg (by simp [hpa])] at hc
      have hca : c = a := (by simpa using hc : a = c).symm
      subst hca
      exact hpa

theorem rdropWhile_getLast_false {α : Type} {p : α → Bool} {l : List α} {c : α}
    (hc : c ∈ (List.rdropWhile p l).getLast?) : p c = false := by
  have hne : List.rdropWhile p l ≠ [] := by
    intro h0; rw [h0] at hc; cases hc
  have hlast := List.rdropWhile_last_not p l hne
  have hcl : c = (List.rdropWhile p l).getLast hne := by
    rw [List.getLast?_eq_getLast_of_ne_nil hne] at hc
    exact (by simpa using hc : (List.rdropWhile p l).getLast hne = c).symm
  subst hcl
  simpa using hlast

theorem trimBy_head_false {p : Char → Bool} {l : Str} {c : Char}
    (hc : c ∈ (trimBy p l).head?) : p c = false := by
  rcases List.rdropWhile_prefix p (l.dropWhile p) with ⟨t, ht⟩
  apply head_dropWhile_false (l := l)
  rw [← ht]
  exact List.mem_head?_append_of_mem_head? hc

theorem trimBy_getLast_false {p : Char → Bool} {l : Str} {c : Char}
    (hc : c ∈ (trimBy p l).getLast?) : p c = false :=
  rdropWhile_getLast_false hc

theorem trimBy_idem (p : Char → Bool) (l : Str) :
    trimBy p (trimBy p l) = trimBy p l :=
  trimBy_eq_self (fun _ hc => trimBy_head_false hc) (fun _ hc => trimBy_getLast_false hc)

theorem mem_trimBy {p : Char → Bool} {l : Str} {c : Char} (hc : c ∈ trimBy p l) :
    c ∈ l := by
  have h1 : c ∈ l.dropWhile p :=
    (List.rdropWhile_prefix p (l.dropWhile p)).sublist.mem hc
  exact (List.dropWhile_suffix p).sublist.mem h1

theorem joinWith_single (ch : Char) (l : Str) : joinWith ch [l] = l := rfl

theorem joinWith_cons2 (ch : Char) (l l2 : Str) (ls : List Str) :
    joinWith ch (l :: l2 :: ls) = l ++ ch :: joinWith ch (l2 :: ls) := rfl

theorem splitOnP_ne_nil (p : Char → Bool) (s : Str) : splitOnP p s ≠ [] := by
  cases s with
  | nil => simp [splitOnP]
  | cons c rest =>
    rw [splitOnP]
    by_cases hp : p c = true
    · simp [hp]
    · simp only [hp]
      cases h : splitOnP p rest <;> simp

theorem mem_splitOnP_sepFree {p : Char → Bool} {s : Str} :
    ∀ l ∈ splitOnP p s, ∀ c ∈ l, p c = false := by
  induction s with
  | nil =>
    intro l hl c hc
    simp [splitOnP] at hl
    subst hl
    cases hc
  | cons a rest ih =>
    intro l hl c hc
    rw [splitOnP] at hl
    by_cases hpa : p a = true
    · simp only [hpa, if_true, List.mem_cons] at hl
      rcases hl with rfl | hl
      · cases hc
      · exact ih l hl c hc
    · have hpa' : p a = false := by cases h : p a; rfl; exact absurd h hpa
      simp only [hpa', if_false, Bool.false_eq_true] at hl
      rcases hsp : splitOnP p rest with _ | ⟨l0, ls0⟩
      · exact absurd hsp (splitOnP_ne_nil p rest)
      · rw [hsp] at hl
        simp only [List.mem_cons] at hl
        rcases hl with rfl | hl
        · rcases List.mem_cons.mp hc with rfl | hc2
          · exact hpa'
          · exact ih l0 (by rw [hsp]; exact List.mem_cons_self _ _) c hc2
        · exact ih l (by rw [hsp]; exact List.mem_cons_of_mem _ hl) c hc

theorem mem_splitOnP_mem {p : Char → Bool} {s : Str} :
    ∀ l ∈ splitOnP p s, ∀ c ∈ l, c ∈ s := by
  induction s with
  | nil =>
    intro l hl c hc
    simp [splitOnP] at hl
    subst hl
    cases hc
  | cons a rest ih =>
    intro l hl c hc
    rw [splitOnP] at hl
    by_cases hpa : p a = true
    · simp only [hpa, if_true, List.mem_cons] at hl
      rcases hl with rfl | hl
      · cases hc
      · exact List.mem_cons_of_mem _ (ih l hl c hc)
    · have hpa' : p a = false := by cases h : p a; rfl; exact absurd h hpa
      simp only [hpa', if_false, Bool.false_eq_true] at hl
      rcases hsp : splitOnP p rest with _ | ⟨l0, ls0⟩
      · exact absurd hsp (splitOnP_ne_nil p rest)
      · rw [hsp] at hl
        simp only [List.mem_cons] at hl
        rcases hl with rfl | hl
        · rcases List.mem_cons.mp hc with rfl | hc2
          · exact List.mem_cons_self _ _
          · exact List.mem_cons_of_mem _
              (ih l0 (by rw [hsp]; exact List.mem_cons_self _ _) c hc2)
        · exact List.mem_cons_of_mem _
            (ih l (by rw [hsp]; exact List.mem_cons_of_mem _ hl) c hc)

theorem joinWith_splitOnP (ch : Char) (s : Str) :
    joinWith ch (splitOnP (fun c => c = ch) s) = s := by
  induction s with
  | nil => rfl
  | cons a rest ih =>
    rw [splitOnP]
    by_cases ha : a = ch
    · subst ha
      have hcond : (fun c => (c = a : Bool)) a = true := by simp
      rw [if_pos hcond]
      rcases hsp : splitOnP (fun c => c = a) rest with _ | ⟨l0, ls0⟩
      · exact absurd hsp (splitOnP_ne_nil _ rest)
      · rw [hsp] at ih
        rw [joinWith_cons2, List.nil_append, ih]
    · have hcond : (fun c => (c = ch : Bool)) a = false := by simp [ha]
      rw [if_neg (by simp [hcond])]
      rcases hsp : splitOnP (fun c => c = ch) rest with _ | ⟨l0, ls0⟩
      · exact absurd hsp (splitOnP_ne_nil _ rest)
      · rw [hsp] at ih
        cases ls0 with
        | nil =>
          rw [joinWith_single] at ih ⊢
          rw [ih]
        | cons l1 ls1 =>
          rw [joinWith_cons2] at ih ⊢
          rw [List.cons_append, ih]

theorem splitOnP_sepFree_single {p : Char → Bool} {l : Str}
    (h : ∀ c ∈ l, p c = false) : splitOnP p l = [l] := by
  induction l with
  | nil => rfl
  | cons a rest ih =>
    have hpa : p a = false := h a (List.mem_cons_self _ _)
    rw [splitOnP]
    simp only [hpa, if_false, Bool.false_eq_true]
    rw [ih (fun c hc => h c (List.mem_cons_of_mem _ hc))]

theorem splitOnP_append_sep {p : Char → Bool} {l : Str} {ch : Char} (t : Str)
    (hl : ∀ c ∈ l, p c = false) (hch : p ch = true) :
    splitOnP p (l ++ ch :: t) = l :: splitOnP p t := by
  induction l with
  | nil => simp [splitOnP, hch]
  | cons a rest ih =>
    have hpa : p a = false := hl a (List.mem_cons_self _ _)
    rw [List.cons_append, splitOnP]
    simp only [hpa, if_false, Bool.false_eq_true]
    rw [ih (fun c hc => hl c (List.mem_cons_of_mem _ hc))]

theorem splitOnP_joinWith {p : Char → Bool} {ch : Char} (hch : p ch = true) :
    ∀ ls : List Str, ls ≠ [] → (∀ l ∈ ls, ∀ c ∈ l, p c = false) →
      splitOnP p (joinWith ch ls) = ls := by
  intro ls
  induction ls with
  | nil => intro h; exact absurd rfl h
  | cons l rest ih =>
    intro _ hfree
    cases rest with
    | nil =>
      rw [joinWith]
      exact splitOnP_sepFree_single (hfree l (List.mem_cons_self _ _))
    | cons l2 rest2 =>
      rw [joinWith, splitOnP_append_sep _ (hfree l (List.mem_cons_self _ _)) hch]
      rw [ih (by simp) (fun m hm => hfree m (List.mem_cons_of_mem _ hm))]

theorem mem_joinWith {ch : Char} {c : Char} :
    ∀ {ls : List Str}, c ∈ joinWith ch ls → c = ch ∨ ∃ l ∈ ls, c ∈ l := by
  intro ls
  induction ls with
  | nil => intro h; cases h
  | cons l rest ih =>
    intro hc
    cases rest with
    | nil =>
      right
      exact ⟨l, List.mem_cons_self _ _, hc⟩
    | cons l2 rest2 =>
      rw [joinWith_cons2] at hc
      rcases List.mem_append.mp hc with hc | hc
      · right
        exact ⟨l, List.mem_cons_self _ _, hc⟩
      · rcases List.mem_cons.mp hc with rfl | hc2
        · left; rfl
        · rcases ih hc2 with h | ⟨m, hm, hcm⟩
          · left; exact h
          · right; exact ⟨m, List.mem_cons_of_mem _ hm, hcm⟩

/-- Empty-line test used when relating newline-trimming to line lists. -/
def emptyLine (l : Str) : Bool := l.isEmpty

theorem joinWith_append_single (ch : Char) :
    ∀ (A : List Str) (x : Str), A ≠ [] →
      joinWith ch (A ++ [x]) = joinWith ch A ++ ch :: x := by
  intro A
  induction A with
  | nil => intro x h; exact absurd rfl h
  | cons l rest ih =>
    intro x _
    cases rest with
    | nil => rfl
    | cons l2 rest2 =>
      calc joinWith ch ((l :: l2 :: rest2) ++ [x])
          = l ++ ch :: joinWith ch ((l2 :: rest2) ++ [x]) := rfl
        _ = l ++ ch :: (joinWith ch (l2 :: rest2) ++ ch :: x) := by
            rw [ih x (by simp)]
        _ = (l ++ ch :: joinWith ch (l2 :: rest2)) ++ ch :: x := by simp
        _ = joinWith ch (l :: l2 :: rest2) ++ ch :: x := rfl

theorem joinWith_reverse (ch : Char) :
    ∀ ls : List Str,
      (joinWith ch ls).reverse = joinWith ch (ls.reverse.map List.reverse) := by
  intro ls
  induction ls with
  | nil => rfl
  | cons l rest ih =>
    cases rest with
    | nil => rfl
    | cons l2 rest2 =>
      calc (joinWith ch (l :: l2 :: rest2)).reverse
          = (joinWith ch (l2 :: rest2)).reverse ++ ch :: l.reverse := by
            rw [joinWith_cons2]
            simp
        _ = joinWith ch ((l2 :: rest2).reverse.map List.reverse) ++ ch :: l.reverse := by
            rw [ih]
        _ = joinWith ch (((l2 :: rest2).reverse.map List.reverse) ++ [l.reverse]) := by
            rw [joinWith_append_single _ _ _ (by simp)]
        _ = joinWith ch ((l :: l2 :: rest2).reverse.map List.reverse) := by
            conv_rhs => rw [List.reverse_cons, List.map_append]
            rfl

theorem dropWhile_joinWith {p : Char → Bool} {ch : Char} (hch : p ch = true) :
    ∀ ls : List Str, (∀ l ∈ ls, ∀ c ∈ l, p c = false) →
      (joinWith ch ls).dropWhile p = joinWith ch (ls.dropWhile emptyLine) := by
  intro ls
  induction ls with
  | nil => intro _; rfl
  | cons l rest ih =>
    intro hfree
    cases rest with
    | nil =>
      cases l with
      | nil => rfl
      | cons c r =>
        have hc : p c = false := hfree _ (List.mem_cons_self _ _) c (List.mem_cons_self _ _)
        rw [joinWith_single]
        rw [List.dropWhile_cons_of_neg (by simp [hc])]
        rfl
    | cons l2 rest2 =>
      cases l with
      | nil =>
        rw [joinWith_cons2, List.nil_append, List.dropWhile_cons_of_pos hch]
        rw [ih (fun m hm => hfree m (List.mem_cons_of_mem _ hm))]
        rfl
      | cons c r =>
        have hc : p c = false := hfree _ (List.mem_cons_self _ _) c (List.mem_cons_self _ _)
        rw [joinWith_cons2, List.cons_append, List.dropWhile_cons_of_neg (by simp [hc])]
        have hne : emptyLine (c :: r) = false := rfl
        rw [List.dropWhile_cons_of_neg (by simp [hne]), joinWith_cons2, List.cons_append]

theorem dropWhile_emptyLine_map_reverse :
    ∀ A : List Str,
      (A.map List.reverse).dropWhile emptyLine = (A.dropWhile emptyLine).map List.reverse := by
  intro A
  induction A with
  | nil => rfl
  | cons l rest ih =>
    rw [List.map_cons]
    cases hl : emptyLine l with
    | true =>
      have hl' : l = [] := by
        cases l with
        | nil => rfl
        | cons a r => simp [emptyLine] at hl
      subst hl'
      rw [List.dropWhile_cons_of_pos (by rfl), List.dropWhile_cons_of_pos hl, ih]
    | false =>
      have hlr : emptyLine l.reverse = false := by
        cases l with
        | nil => simp [emptyLine] at hl
        | cons a r => simp [emptyLine]
      rw [List.dropWhile_cons_of_neg (by simp [hlr]), List.dropWhile_cons_of_neg (by simp [hl]),
        List.map_cons]

theorem map_reverse_reverse_map_reverse (X : List Str) :
    ((X.map List.reverse).reverse.map List.reverse) = X.reverse := by
  induction X with
  | nil => rfl
  | cons l rest ih =>
    rw [List.map_cons, List.reverse_cons, List.map_append, ih, List.map_cons, List.map_nil,
      List.reverse_reverse, List.reverse_cons]

theorem rdropWhile_joinWith {p : Char → Bool} {ch : Char} (hch : p ch = true)
    (ls : List Str) (hfree : ∀ l ∈ ls, ∀ c ∈ l, p c = false) :
    List.rdropWhile p (joinWith ch ls) =
      joinWith ch (List.rdropWhile emptyLine ls) := by
  have hfree' : ∀ m ∈ ls.reverse.map List.reverse, ∀ c ∈ m, p c = false := by
    intro m hm c hc
    rcases List.mem_map.mp hm with ⟨l, hl, rfl⟩
    exact hfree l (List.mem_reverse.mp hl) c (List.mem_reverse.mp hc)
  calc List.rdropWhile p (joinWith ch ls)
      = ((joinWith ch ls).reverse.dropWhile p).reverse := rfl
    _ = ((joinWith ch (ls.reverse.map List.reverse)).dropWhile p).reverse := by
        rw [joinWith_reverse]
    _ = (joinWith ch ((ls.reverse.map List.reverse).dropWhile emptyLine)).reverse := by
        rw [dropWhile_joinWith hch _ hfree']
    _ = (joinWith ch ((ls.reverse.dropWhile emptyLine).map List.reverse)).reverse := by
        rw [dropWhile_emptyLine_map_reverse]
    _ = joinWith ch (((ls.reverse.dropWhile emptyLine).map List.reverse).reverse.map
          List.reverse) := by
        rw [joinWith_reverse]
    _ = joinWith ch ((ls.reverse.dropWhile emptyLine).reverse) := by
        rw [map_reverse_reverse_map_reverse]
    _ = joinWith ch (List.rdropWhile emptyLine ls) := rfl

theorem trimBy_joinWith {p : Char → Bool} {ch : Char} (hch : p ch = true)
    (ls : List Str) (hfree : ∀ l ∈ ls, ∀ c ∈ l, p c = false) :
    trimBy p (joinWith ch ls) =
      joinWith ch (List.rdropWhile emptyLine (ls.dropWhile emptyLine)) := by
  rw [trimBy, dropWhile_joinWith hch ls hfree]
  exact rdropWhile_joinWith hch _ (fun l hl =>
    hfree l ((List.dropWhile_suffix emptyLine).sublist.mem hl))

theorem joinWith_head_ne_nil (ch : Char) (m0 : Str) (rest : List Str)
    (h : m0 ≠ []) : (joinWith ch (m0 :: rest)).head? = m0.head? := by
  cases rest with
  | nil => rfl
  | cons l2 rest2 =>
    rw [joinWith_cons2]
    exact List.head?_append_of_ne_nil _ h

theorem joinWith_getLast_ne_nil (ch : Char) (ms : List Str) (hms : ms ≠ [])
    (h : ms.getLast hms ≠ []) :
    (joinWith ch ms).getLast? = (ms.getLast hms).getLast? := by
  rw [← List.head?_reverse, joinWith_reverse]
  have hrev : ms.reverse = (ms.getLast hms).reverse.reverse :: ms.dropLast.reverse := by
    conv_lhs => rw [← List.dropLast_append_getLast hms]
    rw [List.reverse_append, List.reverse_reverse]
    rfl
  rw [hrev, List.map_cons, List.reverse_reverse,
    joinWith_head_ne_nil _ _ _ (by simpa using h)]
  rw [List.head?_reverse]

/-! Normal forms for normalizeContent and the idempotence argument. -/

/-- Strings containing no carriage-return. -/
def crFree (t : Str) : Prop := ∀ c ∈ t, c ≠ '\r'

/-- Every line of `t` is fixed by trimSpace. -/
def linesTrimmed (t : Str) : Prop := ∀ l ∈ splitOnP isNl t, trimSpace l = l

/-- The boundary characters of `t` are not whitespace. -/
def boundaryTrim (t : Str) : Prop :=
  (∀ c ∈ t.head?, goIsSpace c = false) ∧ (∀ c ∈ t.getLast?, goIsSpace c = false)

/-- Invariant characterising outputs of normalizeContent. -/
def normalForm (t : Str) : Prop := crFree t ∧ linesTrimmed t ∧ boundaryTrim t

theorem replaceCRLF_cons2 (c d : Char) (rest : Str) :
    replaceCRLF (c :: d :: rest) =
      if c = '\r' ∧ d = '\n' then '\n' :: replaceCRLF rest
      else c :: replaceCRLF (d :: rest) := rfl

theorem replaceCRLF_eq_self : ∀ t : Str, crFree t → replaceCRLF t = t
  | [], _ => rfl
  | [_], _ => rfl
  | c :: d :: rest, h => by
    have hc : c ≠ '\r' := h c (List.mem_cons_self _ _)
    rw [replaceCRLF_cons2, if_neg (by intro hcd; exact hc hcd.1)]
    rw [replaceCRLF_eq_self (d :: rest) (fun x hx => h x (List.mem_cons_of_mem _ hx))]

theorem replaceCR_eq_self {t : Str} (h : crFree t) : replaceCR t = t := by
  rw [replaceCR]
  rw [List.map_congr_left (fun c hc => if_neg (h c hc))]
  exact List.map_id t

theorem crFree_replaceCR (t : Str) : crFree (replaceCR t) := by
  intro c hc
  rcases List.mem_map.mp hc with ⟨d, _, rfl⟩
  by_cases hd : d = '\r'
  · rw [if_pos hd]; decide
  · rw [if_neg hd]; exact hd

theorem isNl_false_of_space_false {c : Char} (h : goIsSpace c = false) :
    isNl c = false := by
  cases hn : isNl c with
  | false => rfl
  | true =>
    exfalso
    have hc : c = '\n' := by simpa [isNl] using hn
    subst hc
    simp [goIsSpace] at h

theorem isNl_nl : isNl '\n' = true := rfl

theorem trimSpace_nil : trimSpace [] = [] := rfl

/-- Re-running the normalization steps on a string already in normal form
changes nothing. -/
theorem normalizeContent_eq_self {t : Str} (h : normalForm t) :
    normalizeContent t = t := by
  have hcr : crFree t := h.1
  have hlines : linesTrimmed t := h.2.1
  have hb1 := h.2.2.1
  have hb2 := h.2.2.2
  have h1 : trimSpace t = t := trimBy_eq_self hb1 hb2
  have h2 : replaceCRLF t = t := replaceCRLF_eq_self t hcr
  have h3 : replaceCR t = t := replaceCR_eq_self hcr
  have h4 : (splitOnP isNl t).map trimSpace = splitOnP isNl t := by
    rw [List.map_congr_left hlines]
    exact List.map_id _
  have h5 : joinWith '\n' (splitOnP isNl t) = t := by
    have heq : splitOnP isNl t = splitOnP (fun c => c = '\n') t := rfl
    rw [heq]
    exact joinWith_splitOnP '\n' t
  have h6 : trimBy isNl t = t :=
    trimBy_eq_self (fun c hc => isNl_false_of_space_false (hb1 c hc))
      (fun c hc => isNl_false_of_space_false (hb2 c hc))
  show trimBy isNl (joinWith '\n'
    ((splitOnP isNl (replaceCR (replaceCRLF (trimSpace t)))).map trimSpace)) = t
  rw [h1, h2, h3, h4, h5, h6]

/-- Every output of normalizeContent is in normal form. -/
theorem normalForm_normalizeContent (s : Str) : normalForm (normalizeContent s) := by
  have hcru : crFree (replaceCR (replaceCRLF (trimSpace s))) := crFree_replaceCR _
  set u := replaceCR (replaceCRLF (trimSpace s)) with hu
  set ls' := (splitOnP isNl u).map trimSpace with hls
  have f1 : ∀ l ∈ ls', trimSpace l = l := by
    intro l hl
    rcases List.mem_map.mp hl with ⟨l0, _, rfl⟩
    exact trimBy_idem goIsSpace l0
  have f2 : ∀ l ∈ ls', ∀ c ∈ l, isNl c = false := by
    intro l hl c hc
    rcases List.mem_map.mp hl with ⟨l0, hl0, rfl⟩
    exact mem_splitOnP_sepFree l0 hl0 c (mem_trimBy hc)
  have f3 : ∀ l ∈ ls', ∀ c ∈ l, c ≠ '\r' := by
    intro l hl c hc
    rcases List.mem_map.mp hl with ⟨l0, hl0, rfl⟩
    exact hcru c (mem_splitOnP_mem l0 hl0 c (mem_trimBy hc))
  have hmain : normalizeContent s =
      joinWith '\n' (List.rdropWhile emptyLine (ls'.dropWhile emptyLine)) := by
    show trimBy isNl (joinWith '\n' ls') = _
    exact trimBy_joinWith isNl_nl ls' f2
  set ms := List.rdropWhile emptyLine (ls'.dropWhile emptyLine) with hms
  have hsub : ∀ m ∈ ms, m ∈ ls' := by
    intro m hm
    have h1 : m ∈ ls'.dropWhile emptyLine :=
      (List.rdropWhile_prefix emptyLine _).sublist.mem hm
    exact (List.dropWhile_suffix emptyLine).sublist.mem h1
  rw [hmain]
  refine ⟨?_, ?_, ?_, ?_⟩
  · intro c hc
    rcases mem_joinWith hc with rfl | ⟨m, hm, hcm⟩
    · decide
    · exact f3 m (hsub m hm) c hcm
  · intro l hl
    cases hcase : ms with
    | nil =>
      rw [hcase] at hl
      have : l ∈ splitOnP isNl ([] : Str) := hl
      simp [splitOnP] at this
      subst this
      rfl
    | cons m0 rest =>
      rw [hcase] at hl
      rw [splitOnP_joinWith isNl_nl (m0 :: rest) (by simp)
        (fun m hm c hc => f2 m (hsub m (hcase ▸ hm)) c hc)] at hl
      exact f1 l (hsub l (hcase ▸ hl))
  · intro c hc
    cases hcase : ms with
    | nil =>
      rw [hcase] at hc
      cases hc
    | cons m0 rest =>
      rw [hcase] at hc
      have hm0 : m0 ∈ ls' := hsub m0 (by rw [hcase]; exact List.mem_cons_self _ _)
      have hm0ne : m0 ≠ [] := by
        have hpre := List.rdropWhile_prefix emptyLine (ls'.dropWhile emptyLine)
        rw [← hms, hcase] at hpre
        rcases hpre with ⟨t', ht'⟩
        have hhead : m0 ∈ (ls'.dropWhile emptyLine).head? := by
          rw [← ht']
          rfl
        have := head_dropWhile_false hhead
        intro h0
        subst h0
        simp [emptyLine] at this
      rw [joinWith_head_ne_nil _ _ _ hm0ne] at hc
      have htr : trimSpace m0 = m0 := f1 m0 hm0
      rw [← htr] at hc
      exact trimBy_head_false hc
  · intro c hc
    cases hcase : ms with
    | nil =>
      rw [hcase] at hc
      cases hc
    | cons m0 rest =>
      have hne : ms ≠ [] := by rw [hcase]; simp
      have hmk : ms.getLast hne ∈ ms := List.getLast_mem hne
      have hmkls : ms.getLast hne ∈ ls' := hsub _ hmk
      have hmkne : ms.getLast hne ≠ [] := by
        have hlastmem : ms.getLast hne ∈ (List.rdropWhile emptyLine
            (ls'.dropWhile emptyLine)).getLast? := by
          rw [← hms, List.getLast?_eq_getLast_of_ne_nil hne]
          rfl
        have := rdropWhile_getLast_false hlastmem
        intro h0
        rw [h0] at this
        simp [emptyLine] at this
      have hgl : (joinWith '\n' ms).getLast? = (ms.getLast hne).getLast? :=
        joinWith_getLast_ne_nil '\n' ms hne hmkne
      rw [hcase] at hc
      rw [← hcase] at hc
      rw [hgl] at hc
      have htr : trimSpace (ms.getLast hne) = ms.getLast hne := f1 _ hmkls
      rw [← htr] at hc
      exact trimBy_getLast_false hc

/-- C6: the extraction normalization of ExtractContentWithCSS (trim outer
whitespace, unify line endings to a single newline, trim each line's leading
and trailing whitespace, strip boundary blank lines) is idempotent: for every
string s, normalizeContent (normalizeContent s) = normalizeContent s. -/
theorem normalizeContent_idempotent (s : Str) :
    normalizeContent (normalizeContent s) = normalizeContent s :=
  normalizeContent_eq_self (normalForm_normalizeContent s)

/-! URL model and site configuration. -/

/-- Result of parsing a URL: the components of Go's url.URL that the
scraper reads (Scheme, Host, Path). -/
structure GoURL where
  scheme : Str
  host : Str
  path : Str
deriving DecidableEq

/-- Break `s` at the first occurrence of the pattern `pat`, returning the
part before it and the part after it. -/
def breakOnSub (pat : Str) : Str → Option (Str × Str)
  | [] => none
  | c :: rest =>
    if pat.isPrefixOf (c :: rest) then some ([], (c :: rest).drop pat.length)
    else
      match breakOnSub pat rest with
      | none => none
      | some (pre, post) => some (c :: pre, post)

/-- Modelled fragment of Go's net/url.Parse covering the URL forms the
scraper handles: an absolute URL scheme://host/path parses into scheme,
host (authority up to the first slash) and path (the rest); a string
without :// parses with empty scheme and host and the whole string as
path; an empty scheme before :// is an error, as in url.Parse. Query,
fragment, user info and control-character validation are outside the
modelled fragment. -/
def parseURL (s : Str) : Option GoURL :=
  match breakOnSub (str "://") s with
  | some (sch, rest) =>
    if sch = [] then none
    else some ⟨sch, rest.takeWhile (fun c => c ≠ '/'), rest.dropWhile (fun c => c ≠ '/')⟩
  | none => some ⟨[], [], s⟩

/-- Path component used by getOverrides: the source runs
`parsedURL, _ := url.Parse(urlStr)` and reads `parsedURL.Path`,
ignoring the error. -/
def urlPathOf (s : Str) : Str :=
  match parseURL s with
  | some u => u.path
  | none => []

/-- Go's strings.HasPrefix(s, pre). -/
def startsWith (s pre : Str) : Bool := pre.isPrefixOf s

/-- PathOverride (internal/scraper/scraper.go lines 56-60, identical in
unnamed/part_001 lines 84-88). -/
structure PathOverride where
  Path : Str
  CSSLocator : Str
  ExcludeSelectors : List Str
deriving DecidableEq

/-- SiteConfig: union of the fields of the two variants in the tree
(internal/scraper/scraper.go lines 45-53 has FileNamePrefix; the
unnamed/part_001 variant lines 71-81 has MaxDepth, OutputAlias and
LinksContainerSelector instead). Functions below read only the fields
their own source file declares. -/
structure SiteConfig where
  BaseURL : Str
  CSSLocator : Str
  ExcludeSelectors : List Str
  MaxDepth : Int
  AllowedPaths : List Str
  ExcludePaths : List Str
  OutputAlias : Str
  FileNamePrefix : Str
  PathOverrides : List PathOverride
  LinksContainerSelector : Str
deriving DecidableEq

/-- Loop body of getOverrides (internal/scraper/scraper.go lines 194-201,
identical in unnamed/part_001 lines 331-338): first declared override
whose Path is a string prefix of the URL path wins; its locator applies
when non-empty, otherwise the site locator; its exclude list always
applies. -/
def getOverridesLoop (path : Str) (site : SiteConfig) : List PathOverride → Str × List Str
  | [] => (site.CSSLocator, site.ExcludeSelectors)
  | o :: rest =>
    if startsWith path o.Path then
      if o.CSSLocator ≠ [] then (o.CSSLocator, o.ExcludeSelectors)
      else (site.CSSLocator, o.ExcludeSelectors)
    else getOverridesLoop path site rest

/-- getOverrides (internal/scraper/scraper.go lines 190-204, identical in
unnamed/part_001 lines 327-341). -/
def getOverrides (urlStr : Str) (site : SiteConfig) : Str × List Str :=
  getOverridesLoop (urlPathOf urlStr) site site.PathOverrides

theorem getOverridesLoop_first (path : Str) (site : SiteConfig) :
    ∀ (l : List PathOverride) (i : Nat) (hi : i < l.length),
      startsWith path (l.get ⟨i, hi⟩).Path = true →
      (∀ j (hj : j < l.length), j < i → startsWith path (l.get ⟨j, hj⟩).Path = false) →
      getOverridesLoop path site l =
        (if (l.get ⟨i, hi⟩).CSSLocator ≠ [] then (l.get ⟨i, hi⟩).CSSLocator
         else site.CSSLocator,
         (l.get ⟨i, hi⟩).ExcludeSelectors) := by
  intro l
  induction l with
  | nil => intro i hi; cases hi
  | cons o rest ih =>
    intro i hi hmatch hfirst
    cases i with
    | zero =>
      rw [getOverridesLoop]
      simp only [List.get] at hmatch ⊢
      rw [hmatch]
      by_cases hcl : o.CSSLocator = [] <;> simp [hcl]
    | succ i0 =>
      have ho : startsWith path o.Path = false :=
        hfirst 0 (by simp) (Nat.succ_pos i0)
      rw [getOverridesLoop, ho]
      simp only [Bool.false_eq_true, if_false]
      have hi0 : i0 < rest.length := Nat.lt_of_succ_lt_succ hi
      have hm0 : startsWith path (rest.get ⟨i0, hi0⟩).Path = true := hmatch
      exact ih i0 hi0 hm0
        (fun j hj hji => hfirst (j + 1) (Nat.succ_lt_succ hj) (Nat.succ_lt_succ hji))

theorem getOverridesLoop_none (path : Str) (site : SiteConfig) :
    ∀ l : List PathOverride,
      (∀ o ∈ l, startsWith path o.Path = false) →
      getOverridesLoop path site l = (site.CSSLocator, site.ExcludeSelectors) := by
  intro l
  induction l with
  | nil => intro _; rfl
  | cons o rest ih =>
    intro h
    rw [getOverridesLoop, h o (List.mem_cons_self _ _)]
    simp only [Bool.false_eq_true, if_false]
    exact ih (fun m hm => h m (List.mem_cons_of_mem _ hm))

/-- C1: path override resolution is first-declared-match: getOverrides
returns, for the first declared override whose Path is a string prefix of
the URL's path component, that override's locator when non-empty
(otherwise the site default locator) together with that override's
exclude-selector list; and when no override's Path is a prefix of the URL
path it returns the site's default locator and exclude-selector list. -/
theorem getOverrides_first_declared_match :
    (∀ (urlStr : Str) (site : SiteConfig) (i : Nat)
        (hi : i < site.PathOverrides.length),
      startsWith (urlPathOf urlStr) (site.PathOverrides.get ⟨i, hi⟩).Path = true →
      (∀ j (hj : j < site.PathOverrides.length), j < i →
        startsWith (urlPathOf urlStr) (site.PathOverrides.get ⟨j, hj⟩).Path = false) →
      getOverrides urlStr site =
        (if (site.PathOverrides.get ⟨i, hi⟩).CSSLocator ≠ []
         then (site.PathOverrides.get ⟨i, hi⟩).CSSLocator
         else site.CSSLocator,
         (site.PathOverrides.get ⟨i, hi⟩).ExcludeSelectors))
    ∧ (∀ (urlStr : Str) (site : SiteConfig),
      (∀ o ∈ site.PathOverrides, startsWith (urlPathOf urlStr) o.Path = false) →
      getOverrides urlStr site = (site.CSSLocator, site.ExcludeSelectors)) :=
  ⟨fun urlStr site i hi hm hf =>
     getOverridesLoop_first (urlPathOf urlStr) site site.PathOverrides i hi hm hf,
   fun urlStr site h =>
     getOverridesLoop_none (urlPathOf urlStr) site site.PathOverrides h⟩

/-- Example site used to witness C1: the spec's override-resolution
example, overrides declared in the order /x then /x/y. -/
def exSiteC1 : SiteConfig :=
  ⟨str "http://h", str "main", [str ".nav"], 0, [], [], [], [],
   [⟨str "/x", str "#x", [str ".a"]⟩, ⟨str "/x/y", str "#y", []⟩], []⟩

/-- Witness for C1 at the spec's example: /x/y/page resolves through the
first declared override /x, and an unmatched path falls back to the site
defaults. -/
theorem getOverrides_first_declared_match_witness :
    getOverrides (str "http://h/x/y/page") exSiteC1 = (str "#x", [str ".a"]) ∧
    getOverrides (str "http://h/z") exSiteC1 = (str "main", [str ".nav"]) := by
  constructor
  · have h := getOverrides_first_declared_match.1 (str "http://h/x/y/page") exSiteC1
      0 (by decide) (by decide) (fun j hj hji => absurd hji (Nat.not_lt_zero j))
    exact h.trans (by decide)
  · exact getOverrides_first_declared_match.2 (str "http://h/z") exSiteC1 (by decide)

/-- Empty URL record, standing for the nil pointer that
`baseURL, _ := url.Parse(site.BaseURL)` leaves when parsing fails. -/
def nilURL : GoURL := ⟨[], [], []⟩

/-- isAllowedURL (unnamed/part_001 lines 290-325): reject unparseable
URLs and foreign hosts; when AllowedPaths is non-empty require an
allowed-path prefix; always reject excluded-path prefixes. The variant
in internal/scraper/scraper.go lines 164-188 differs: with no declared
AllowedPaths it rejects every URL instead of imposing no restriction. -/
def isAllowedURL (urlStr : Str) (site : SiteConfig) : Bool :=
  match parseURL urlStr with
  | none => false
  | some u =>
    let base := (parseURL site.BaseURL).getD nilURL
    if u.host ≠ base.host then false
    else if site.AllowedPaths.length > 0 &&
        !(site.AllowedPaths.any (fun a => startsWith u.path a)) then false
    else if site.ExcludePaths.any (fun e => startsWith u.path e) then false
    else true

theorem isAllowedURL_iff (urlStr : Str) (site : SiteConfig) :
    isAllowedURL urlStr site = true ↔
      ∃ u, parseURL urlStr = some u ∧
        u.host = ((parseURL site.BaseURL).getD nilURL).host ∧
        (site.AllowedPaths ≠ [] →
          ∃ a ∈ site.AllowedPaths, startsWith u.path a = true) ∧
        (∀ e ∈ site.ExcludePaths, startsWith u.path e = false) := by
  cases hp : parseURL urlStr with
  | none =>
    simp only [isAllowedURL, hp]
    simp
  | some u =>
    simp only [isAllowedURL, hp]
    constructor
    · intro h
      by_cases h1 : u.host ≠ ((parseURL site.BaseURL).getD nilURL).host
      · rw [if_pos h1] at h; cases h
      rw [if_neg h1] at h
      by_cases h2 : (decide (site.AllowedPaths.length > 0) &&
          !(site.AllowedPaths.any fun a => startsWith u.path a)) = true
      · rw [if_pos h2] at h; cases h
      rw [if_neg h2] at h
      by_cases h3 : (site.ExcludePaths.any fun e => startsWith u.path e) = true
      · rw [if_pos h3] at h; cases h
      refine ⟨u, rfl, not_ne_iff.mp h1, ?_, ?_⟩
      · intro hne
        have h2' : (decide (site.AllowedPaths.length > 0) &&
            !(site.AllowedPaths.any fun a => startsWith u.path a)) = false := by
          cases hval : (decide (site.AllowedPaths.length > 0) &&
              !(site.AllowedPaths.any fun a => startsWith u.path a))
          · rfl
          · exact absurd hval h2
        have hlen : decide (site.AllowedPaths.length > 0) = true := by
          simp [List.length_pos, hne]
        rw [hlen, Bool.true_and] at h2'
        have hx : (site.AllowedPaths.any fun a => startsWith u.path a) = true := by
          cases hval : (site.AllowedPaths.any fun a => startsWith u.path a) with
          | false => rw [hval] at h2'; cases h2'
          | true => rfl
        exact List.any_eq_true.mp hx
      · intro e he
        have h3' : (site.ExcludePaths.any fun x => startsWith u.path x) = false := by
          cases hval : (site.ExcludePaths.any fun x => startsWith u.path x)
          · rfl
          · exact absurd hval h3
        rw [List.any_eq_false] at h3'
        simpa using h3' e he
    · rintro ⟨u', hu', hhost, hallow, hexcl⟩
      have huu : u = u' := Option.some.inj hu'
      subst huu
      rw [if_neg (not_ne_iff.mpr hhost)]
      have hcond2 : (decide (site.AllowedPaths.length > 0) &&
          !(site.AllowedPaths.any fun a => startsWith u.path a)) = false := by
        cases hap : site.AllowedPaths with
        | nil => simp
        | cons a0 rest =>
          rcases hallow (by rw [hap]; simp) with ⟨a, ha, hsa⟩
          have hany : (site.AllowedPaths.any fun x => startsWith u.path x) = true :=
            List.any_eq_true.mpr ⟨a, ha, hsa⟩
          rw [hap] at hany
          rw [hany]
          simp
      rw [if_neg (by simp [hcond2])]
      have hexany : (site.ExcludePaths.any fun e => startsWith u.path e) = false := by
        rw [List.any_eq_false]
        intro e he
        simp [hexcl e he]
      rw [if_neg (by simp [hexany])]

/-! Crawl model for the unnamed/part_001 scraper. -/

/-- Result record sent on the results channel of ScrapeSites
(unnamed/part_001 lines 92-96). -/
inductive ScrapeResult where
  | okR (url content : Str)
  | errR (url emsg : Str)
deriving DecidableEq

/-- External capabilities consumed by the crawl (spec section 6):
headless-browser fetch, link extraction inside the links container
(goquery Find over the fetched document), and CSS extraction. -/
structure Oracles where
  fetch : Str → Option Str
  linksOf : Str → Str → List Str
  extract : Str → Str → List Str → Option Str

/-- Prefix of `p` up to and including its last slash (empty when `p` has
no slash); the merge step of RFC 3986 relative resolution. -/
def upToLastSlash (p : Str) : Str :=
  (p.reverse.dropWhile (fun c => c ≠ '/')).reverse

/-- Rendered form of a parsed URL, as url.URL.String() produces for the
scheme://host/path fragment. -/
def renderURL (u : GoURL) : Str := u.scheme ++ str "://" ++ u.host ++ u.path

/-- resolveURL (unnamed/part_001 lines 685-695): parse both strings and
apply ResolveReference. Modelled for the scheme://host/path fragment:
an absolute href wins; a scheme-relative href keeps the base scheme; an
absolute path keeps scheme and host; otherwise the path merges onto the
base path (dot-segment removal is outside the modelled fragment). -/
def resolveURL (href base : Str) : Str :=
  match parseURL base, parseURL href with
  | some b, some h =>
    if h.scheme ≠ [] then href
    else if h.host ≠ [] then renderURL ⟨b.scheme, h.host, h.path⟩
    else if startsWith h.path (str "/") then renderURL ⟨b.scheme, b.host, h.path⟩
    else renderURL ⟨b.scheme, b.host, upToLastSlash b.path ++ h.path⟩
  | _, _ => href

/-- State of one site crawl: the per-site visited map, the list of URLs
passed to FetchWebpageContent in call order, the results emitted on the
channel, and the number of times the link-discovery branch ran. -/
structure CrawlState where
  visited : List Str
  fetched : List Str
  emitted : List ScrapeResult
  discoveries : Nat
deriving DecidableEq

/-- Initial crawl state: `visited := make(map[string]bool)`
(unnamed/part_001 line 109). -/
def initCrawl : CrawlState := ⟨[], [], [], 0⟩

/-- Dispatch loop over discovered links (unnamed/part_001 lines 196-206):
each href is dispatched when the guard
`isAllowedURL(resolvedURL, site) && !visited[resolvedURL]` holds. -/
def foldLinks (step : Str → CrawlState → CrawlState)
    (guard : Str → CrawlState → Bool) : List Str → CrawlState → CrawlState
  | [], st => st
  | l :: ls, st => foldLinks step guard ls (if guard l st then step l st else st)

/-- scrapeSingleURL (unnamed/part_001 lines 143-236), sequentialised with
fuel: depth guard (line 148, note `site.MaxDepth > 0 &&` disables the
bound when MaxDepth is 0), unsynchronised visited check and insert
(lines 152-155), rate-limiter wait on context.Background() which cannot
fail (lines 160-169, claim C10), fetch, then either the link-discovery
branch (lines 193-208, taken whenever LinksContainerSelector is
non-empty, emitting nothing and dispatching each allowed unvisited
resolved link with depth+1) or override resolution plus extraction
(lines 210-235). goquery parsing of an in-memory string cannot fail, so
the parse-error branch is unreachable. The Go code runs each dispatched
link in its own goroutine; this model runs them depth-first, one
interleaving of the concurrent execution. -/
def scrapeSingleURL (o : Oracles) (site : SiteConfig) :
    Nat → Str → Int → CrawlState → CrawlState
  | 0, _, _, st => st
  | Nat.succ fuel, url, depth, st =>
    if site.MaxDepth > 0 ∧ depth > site.MaxDepth then st
    else if st.visited.contains url then st
    else
      match o.fetch url with
      | none => ⟨url :: st.visited, st.fetched ++ [url],
          st.emitted ++ [ScrapeResult.errR url (str "fetch error")], st.discoveries⟩
      | some html =>
        if site.LinksContainerSelector ≠ [] then
          foldLinks (fun r st' => scrapeSingleURL o site fuel r (depth + 1) st')
            (fun r st' => isAllowedURL r site && !(st'.visited.contains r))
            ((o.linksOf html site.LinksContainerSelector).map
              (fun href => resolveURL href url))
            ⟨url :: st.visited, st.fetched ++ [url], st.emitted, st.discoveries + 1⟩
        else
          match o.extract html (getOverrides url site).1 (getOverrides url site).2 with
          | none => ⟨url :: st.visited, st.fetched ++ [url],
              st.emitted ++ [ScrapeResult.errR url (str "extract error")], st.discoveries⟩
          | some c => ⟨url :: st.visited, st.fetched ++ [url],
              st.emitted ++ [ScrapeResult.okR url c], st.discoveries⟩

/-- Seed URLs of a site: base URL plus each allowed path, exactly the
URLs queued by ScrapeSites (unnamed/part_001 lines 110-117, identical
loop in internal/scraper/scraper.go lines 82-87). -/
def seedURLs (site : SiteConfig) : List Str :=
  site.AllowedPaths.map (fun path => site.BaseURL ++ path)

/-- Per-site goroutine body of ScrapeSites (unnamed/part_001 lines
107-118): a fresh visited map, then scrapeSingleURL on each seed at
depth 0. -/
def scrapeSiteSeeds (o : Oracles) (fuel : Nat) (site : SiteConfig) : CrawlState :=
  site.AllowedPaths.foldl
    (fun st path => scrapeSingleURL o site fuel (site.BaseURL ++ path) 0 st)
    initCrawl

/-- Fetch oracle for the depth-0 discovery scenario: the seed page /a
links to /a/b. -/
def fetchC3 : Str → Option Str := fun u =>
  if u = str "http://h/a" then some (str "<html>A</html>")
  else if u = str "http://h/a/b" then some (str "<html>B</html>")
  else none

/-- Link oracle for the depth-0 discovery scenario: page A's links
container holds one absolute link to /a/b. -/
def linksC3 : Str → Str → List Str := fun html _sel =>
  if html = str "<html>A</html>" then [str "http://h/a/b"] else []

/-- Extraction oracle returning the page itself. -/
def extractC3 : Str → Str → List Str → Option Str := fun html _ _ => some html

/-- Oracles for the depth-0 discovery scenario. -/
def oraclesC3 : Oracles := ⟨fetchC3, linksC3, extractC3⟩

/-- Site with max_depth 0 and a links-container selector. -/
def siteC3 : SiteConfig :=
  ⟨str "http://h", str "main", [], 0, [str "/a"], [], [], [], [], str ".nav"⟩

/-- C3: evaluation of the code at the failing input. With max depth 0
the claim says link discovery is never invoked and only seed URLs are
fetched; but for a site with a links-container selector the depth guard
`site.MaxDepth > 0 && currentDepth > site.MaxDepth` is disabled at 0,
discovery runs, and the discovered non-seed URL /a/b is fetched. -/
theorem maxDepth_zero_discovery_fetches_nonseed :
    (scrapeSiteSeeds oraclesC3 3 siteC3).fetched =
      [str "http://h/a", str "http://h/a/b"] ∧
    (scrapeSiteSeeds oraclesC3 3 siteC3).discoveries = 2 ∧
    ¬ str "http://h/a/b" ∈ seedURLs siteC3 := by decide

/-! Interleaving model of the unsynchronised visited map (claim C2). -/

/-- Shared-memory state of two concurrent tasks that both discovered the
same URL u: whether u is in the site's visited map, each task's program
counter, and how many times u has been fetched. -/
structure RaceState where
  inVisited : Bool
  pc1 : Nat
  pc2 : Nat
  fetchCount : Nat
deriving DecidableEq

/-- One atomic step of one of two goroutines running scrapeSingleURL
(unnamed/part_001) on the same URL. The visited map is a plain Go map
shared without a mutex, so the membership read (line 152), the insert
(line 155) and the fetch (line 171) are separate steps that interleave
freely across the goroutines spawned at line 202. Program counter 0 is
the read, 1 the insert, 2 the fetch, 3 done. -/
def raceStep (st : RaceState) (second : Bool) : RaceState :=
  match (if second then st.pc2 else st.pc1) with
  | 0 =>
    let target := if st.inVisited then 3 else 1
    if second then ⟨st.inVisited, st.pc1, target, st.fetchCount⟩
    else ⟨st.inVisited, target, st.pc2, st.fetchCount⟩
  | 1 =>
    if second then ⟨true, st.pc1, 2, st.fetchCount⟩
    else ⟨true, 2, st.pc2, st.fetchCount⟩
  | 2 =>
    if second then ⟨st.inVisited, st.pc1, 3, st.fetchCount + 1⟩
    else ⟨st.inVisited, 3, st.pc2, st.fetchCount + 1⟩
  | _ => st

/-- Run both tasks under a given interleaving (false steps task one,
true steps task two) from the state where neither has run and the URL
is not yet visited. -/
def raceRun (sched : List Bool) : RaceState :=
  sched.foldl raceStep ⟨false, 0, 0, 0⟩

/-- C2: evaluation of the code at the failing interleaving. Two
concurrent discoveries of the same URL both pass the visited-map
membership test before either inserts, so the URL is fetched twice;
under the serialised schedule, where one task finishes before the other
starts, it is fetched once. The claim's atomic test-and-insert would
make the first outcome impossible. -/
theorem visited_test_and_insert_not_atomic :
    (raceRun [false, true, false, false, true, true]).fetchCount = 2 ∧
    (raceRun [false, false, false, true, true, true]).fetchCount = 1 := by decide

/-- Site whose only allowed path is also an excluded path. -/
def siteC4 : SiteConfig :=
  ⟨str "http://h", str "main", [], 0, [str "/a"], [str "/a"], [], [], [], []⟩

/-- Oracles for the seed-policy scenario. -/
def oraclesC4 : Oracles :=
  ⟨fun u => if u = str "http://h/a" then some (str "<html>A</html>") else none,
   fun _ _ => [], fun html _ _ => some html⟩

/-- C4 counterexample: the claim says every URL scheduled for fetching
satisfies the admission policy, but seed URLs are fetched without the
isAllowedURL check: the seed base+/a is fetched although its path has
the excluded prefix /a, so isAllowedURL rejects it. -/
theorem seed_fetched_despite_policy :
    (scrapeSiteSeeds oraclesC4 2 siteC4).fetched = [str "http://h/a"] ∧
    isAllowedURL (str "http://h/a") siteC4 = false := by decide

theorem foldLinks_inv (P : CrawlState → Prop) (step : Str → CrawlState → CrawlState)
    (guard : Str → CrawlState → Bool)
    (hstep : ∀ l st, P st → guard l st = true → P (step l st)) :
    ∀ (ls : List Str) (st : CrawlState), P st → P (foldLinks step guard ls st) := by
  intro ls
  induction ls with
  | nil => intro st h; exact h
  | cons l rest ih =>
    intro st h
    rw [foldLinks]
    cases hg : guard l st with
    | false => exact ih st h
    | true => exact ih _ (hstep l st h hg)

theorem scrapeSingleURL_fetched_inv (o : Oracles) (site : SiteConfig) :
    ∀ (fuel : Nat) (url : Str) (depth : Int) (st : CrawlState),
      (∀ v ∈ st.fetched, v ∈ seedURLs site ∨ isAllowedURL v site = true) →
      (url ∈ seedURLs site ∨ isAllowedURL url site = true) →
      ∀ v ∈ (scrapeSingleURL o site fuel url depth st).fetched,
        v ∈ seedURLs site ∨ isAllowedURL v site = true := by
  intro fuel
  induction fuel with
  | zero => intro url depth st hst _ v hv; exact hst v hv
  | succ fuel ih =>
    intro url depth st hst hurl v hv
    rw [scrapeSingleURL] at hv
    by_cases hd : site.MaxDepth > 0 ∧ depth > site.MaxDepth
    · rw [if_pos hd] at hv; exact hst v hv
    rw [if_neg hd] at hv
    by_cases hvis : st.visited.contains url = true
    · rw [if_pos hvis] at hv; exact hst v hv
    rw [if_neg hvis] at hv
    have hnewbase : ∀ w ∈ st.fetched ++ [url],
        w ∈ seedURLs site ∨ isAllowedURL w site = true := by
      intro w hw
      rcases List.mem_append.mp hw with hw | hw
      · exact hst w hw
      · have : w = url := by simpa using hw
        subst this
        exact hurl
    cases hf : o.fetch url with
    | none =>
      simp only [hf] at hv
      exact hnewbase v hv
    | some html =>
      simp only [hf] at hv
      by_cases hsel : site.LinksContainerSelector ≠ []
      · rw [if_pos hsel] at hv
        have hfold := foldLinks_inv
          (fun s => ∀ w ∈ s.fetched, w ∈ seedURLs site ∨ isAllowedURL w site = true)
          (fun r st' => scrapeSingleURL o site fuel r (depth + 1) st')
          (fun r st' => isAllowedURL r site && !(st'.visited.contains r))
          (fun l stX hP hg => ih l (depth + 1) stX hP
            (Or.inr (by
              have hg' := hg
              simp only [Bool.and_eq_true] at hg'
              exact hg'.1)))
          ((o.linksOf html site.LinksContainerSelector).map
            (fun href => resolveURL href url))
          ⟨url :: st.visited, st.fetched ++ [url], st.emitted, st.discoveries + 1⟩
          hnewbase
        exact hfold v hv
      · rw [if_neg hsel] at hv
        cases he : o.extract html (getOverrides url site).1 (getOverrides url site).2 with
        | none =>
          simp only [he] at hv
          exact hnewbase v hv
        | some c =>
          simp only [he] at hv
          exact hnewbase v hv

theorem scrapeSiteSeeds_fetched_policy (o : Oracles) (fuel : Nat) (site : SiteConfig) :
    ∀ v ∈ (scrapeSiteSeeds o fuel site).fetched,
      v ∈ seedURLs site ∨ isAllowedURL v site = true := by
  rw [scrapeSiteSeeds]
  have hgen : ∀ (paths : List Str) (st : CrawlState),
      (∀ p ∈ paths, p ∈ site.AllowedPaths) →
      (∀ v ∈ st.fetched, v ∈ seedURLs site ∨ isAllowedURL v site = true) →
      ∀ v ∈ (paths.foldl
          (fun st path => scrapeSingleURL o site fuel (site.BaseURL ++ path) 0 st)
          st).fetched,
        v ∈ seedURLs site ∨ isAllowedURL v site = true := by
    intro paths
    induction paths with
    | nil => intro st _ hst v hv; exact hst v hv
    | cons p rest ihp =>
      intro st hsub hst v hv
      rw [List.foldl_cons] at hv
      refine ihp _ (fun q hq => hsub q (List.mem_cons_of_mem _ hq)) ?_ v hv
      exact scrapeSingleURL_fetched_inv o site fuel (site.BaseURL ++ p) 0 st hst
        (Or.inl (List.mem_map.mpr ⟨p, hsub p (List.mem_cons_self _ _), rfl⟩))
  exact hgen site.AllowedPaths initCrawl (fun p hp => hp) (fun v hv => absurd hv (by simp [initCrawl]))

/-- C4 amended: isAllowedURL accepts a URL exactly when it parses, its
host equals the host of the site's base URL, its path has an
allowed-path prefix whenever allowed paths are declared (none declared
means no path restriction in this variant), and its path has no
excluded-path prefix; and every fetched URL is either a configured seed
(fetched without the policy check) or a discovered link that passed
isAllowedURL. -/
theorem isAllowedURL_policy :
    (∀ (urlStr : Str) (site : SiteConfig),
      isAllowedURL urlStr site = true ↔
        ∃ u, parseURL urlStr = some u ∧
          u.host = ((parseURL site.BaseURL).getD nilURL).host ∧
          (site.AllowedPaths ≠ [] →
            ∃ a ∈ site.AllowedPaths, startsWith u.path a = true) ∧
          (∀ e ∈ site.ExcludePaths, startsWith u.path e = false))
    ∧ (∀ (o : Oracles) (fuel : Nat) (site : SiteConfig),
        ∀ v ∈ (scrapeSiteSeeds o fuel site).fetched,
          v ∈ seedURLs site ∨ isAllowedURL v site = true) :=
  ⟨isAllowedURL_iff, scrapeSiteSeeds_fetched_policy⟩

/-- Witness for C4 at concrete inputs: the discovered URL /a/b of the
depth-0 scenario is accepted by the characterisation, and every URL
fetched in that scenario is a seed or passes isAllowedURL. -/
theorem isAllowedURL_policy_witness :
    isAllowedURL (str "http://h/a/b") siteC3 = true ∧
    (str "http://h/a/b" ∈ seedURLs siteC3 ∨
      isAllowedURL (str "http://h/a/b") siteC3 = true) := by
  constructor
  · exact (isAllowedURL_policy.1 (str "http://h/a/b") siteC3).mpr
      ⟨⟨str "http", str "h", str "/a/b"⟩, by decide, by decide, by decide, by decide⟩
  · exact isAllowedURL_policy.2 oraclesC3 3 siteC3 (str "http://h/a/b") (by decide)

/-! Rate limiter model (claim C10). -/

/-- Go context as the rate limiter observes it: cancellation flag and
optional deadline. context.Background() is never cancelled and has no
deadline. -/
structure GoCtx where
  canceled : Bool
  deadline : Option Nat
deriving DecidableEq

/-- context.Background(). -/
def backgroundCtx : GoCtx := ⟨false, none⟩

/-- Token-bucket limiter configuration, from
`rate.NewLimiter(rate.Limit(config.Scrape.RequestsPerSecond),
config.Scrape.BurstLimit)` (internal/scraper/scraper.go line 71); the
float64 rate is modelled as a rational. -/
structure RateLimiter where
  limit : ℚ
  burst : Int
deriving DecidableEq

/-- Modelled from the spec: the golang.org/x/time/rate Limiter.Wait used
by scrapeSingleURL is library code absent from src/. Per spec section
4.1 and the library contract, Wait(ctx) (WaitN with n = 1) returns an
error exactly when the request exceeds the burst size (with a finite
limit), the context is cancelled, or the needed token wait exceeds the
context deadline; otherwise it only delays. `neededDelay` stands for the
wait the token-bucket state would impose. The configured limit is a
finite float, so the infinite-limit carve-out never applies and is not
modelled. -/
def waitFails (lim : RateLimiter) (ctx : GoCtx) (neededDelay : Nat) : Bool :=
  ctx.canceled || decide (lim.burst < 1) ||
    (match ctx.deadline with
     | none => false
     | some d => decide (d < neededDelay))

/-- Result emitted on the channel by scrapeSingleURL in the
internal/scraper/scraper.go variant. -/
inductive UResult where
  | rateLimited (url : Str)
  | failed (url : Str)
  | ok (url content : Str)
deriving DecidableEq

/-- scrapeSingleURL (internal/scraper/scraper.go lines 125-162): wait on
the shared limiter with context.Background() (line 133), emitting the
rate-limiter-error result when the wait fails (lines 134-142); otherwise
resolve overrides (line 144) and run scrapeURL — fetch, CSS extraction
and markdown conversion, abstracted as an oracle — emitting its content
or error. The unnamed/part_001 variant waits identically (lines 159-169). -/
def scrapeSingleURLEmit (lim : RateLimiter) (neededDelay : Nat)
    (scrapeO : Str → Str → List Str → Option Str) (url : Str)
    (site : SiteConfig) : UResult :=
  if waitFails lim backgroundCtx neededDelay then UResult.rateLimited url
  else
    match scrapeO url (getOverrides url site).1 (getOverrides url site).2 with
    | none => UResult.failed url
    | some c => UResult.ok url c

/-- C10: scrapeSingleURL waits on the rate limiter with
context.Background(), which is never cancelled and carries no deadline,
so for every configuration with positive sustained rate and burst at
least one the rate-limiter-error branch is unreachable: acquisition can
only delay a task, never fail it. -/
theorem rate_limiter_branch_unreachable :
    ∀ (lim : RateLimiter) (neededDelay : Nat)
      (scrapeO : Str → Str → List Str → Option Str) (url : Str) (site : SiteConfig),
      0 < lim.limit → 1 ≤ lim.burst →
      ∀ u, scrapeSingleURLEmit lim neededDelay scrapeO url site ≠
        UResult.rateLimited u := by
  intro lim d scrapeO url site _ hburst u
  have hw : waitFails lim backgroundCtx d = false := by
    simp [waitFails, backgroundCtx]
    omega
  rw [scrapeSingleURLEmit, hw]
  simp only [Bool.false_eq_true, if_false]
  cases scrapeO url (getOverrides url site).1 (getOverrides url site).2 <;> simp

/-- Witness for C10 at the documented defaults (1 request per second,
burst 3). -/
theorem rate_limiter_branch_unreachable_witness :
    (0 : ℚ) < 1 ∧ (1 : Int) ≤ 3 ∧
    scrapeSingleURLEmit ⟨1, 3⟩ 5 (fun _ _ _ => none) (str "http://h/a") siteC4 ≠
      UResult.rateLimited (str "http://h/a") :=
  ⟨by norm_num, by norm_num,
   rate_limiter_branch_unreachable ⟨1, 3⟩ 5 (fun _ _ _ => none) (str "http://h/a")
     siteC4 (by norm_num) (by norm_num) (str "http://h/a")⟩

/-! Single-mode output assembly (claim C5). -/

/-- Document assembled by writeSingleFile (cmd/web.go lines 133-150): one
section per map entry in map-iteration order, each a header naming the
source URL, the content, and a horizontal-rule separator. The Go map
together with one iteration order is an association list; Go randomises
that order between runs. -/
def writeSingleFile (content : List (Str × Str)) : Str :=
  (content.map (fun e =>
    str "# ::: Content from " ++ e.1 ++ str "\n\n" ++ e.2 ++ str "\n\n---\n\n")).flatten

/-- C5: evaluation of the code at the failing input. The same result map
iterated in its two possible orders yields two different single-mode
documents, because writeSingleFile ranges over the Go map without
sorting; the claim requires one deterministic document ordered
lexicographically by URL, independent of map-iteration order. -/
theorem writeSingleFile_order_dependent :
    ([(str "http://a", str "A"), (str "http://b", str "B")].Perm
      [(str "http://b", str "B"), (str "http://a", str "A")]) ∧
    writeSingleFile [(str "http://a", str "A"), (str "http://b", str "B")] ≠
      writeSingleFile [(str "http://b", str "B"), (str "http://a", str "A")] :=
  ⟨List.Perm.swap _ _ _, by decide⟩

/-! Fan-in of results (claim C8). -/

/-- Boolean test for failed results. -/
def isErrR : ScrapeResult → Bool
  | ScrapeResult.okR _ _ => false
  | ScrapeResult.errR _ _ => true

/-- Map write `scrapedContent[result.url] = result.content`: overwrite
the entry with that key, or append a new one. -/
def insertContent (m : List (Str × Str)) (u c : Str) : List (Str × Str) :=
  if m.any (fun e => e.1 = u) then m.map (fun e => if e.1 = u then (u, c) else e)
  else m ++ [(u, c)]

/-- Fan-in loop of ScrapeSites (unnamed/part_001 lines 127-135; the
internal/scraper/scraper.go variant lines 103-117 additionally stores
the site): failed results are logged and skipped, successful contents
are stored in scrapedContent keyed by URL. -/
def collectLoop (acc : List (Str × Str)) : List ScrapeResult → List (Str × Str)
  | [] => acc
  | ScrapeResult.okR u c :: rest => collectLoop (insertContent acc u c) rest
  | ScrapeResult.errR _ _ :: rest => collectLoop acc rest

/-- Return of ScrapeSites (unnamed/part_001 lines 127-141): the
collected map and, unconditionally, a nil error. -/
def scrapeSitesCollect (results : List ScrapeResult) :
    List (Str × Str) × Option Str :=
  (collectLoop [] results, none)

theorem insertContent_has_key (m : List (Str × Str)) (u c : Str) :
    (insertContent m u c).any (fun e => e.1 = u) = true := by
  rw [insertContent]
  by_cases h : m.any (fun e => e.1 = u) = true
  · rw [if_pos h]
    rcases List.any_eq_true.mp h with ⟨e, he, hk⟩
    refine List.any_eq_true.mpr ⟨(u, c), List.mem_map.mpr ⟨e, he, ?_⟩, by simp⟩
    rw [if_pos (by simpa using hk)]
  · rw [if_neg h]
    exact List.any_eq_true.mpr ⟨(u, c), List.mem_append.mpr (Or.inr (by simp)), by simp⟩

theorem insertContent_preserves_key {m : List (Str × Str)} {w : Str}
    (hk : m.any (fun e => e.1 = w) = true) (u c : Str) :
    (insertContent m u c).any (fun e => e.1 = w) = true := by
  rw [insertContent]
  rcases List.any_eq_true.mp hk with ⟨e, he, hw⟩
  have hw' : e.1 = w := by simpa using hw
  by_cases h : m.any (fun x => x.1 = u) = true
  · rw [if_pos h]
    by_cases heu : e.1 = u
    · refine List.any_eq_true.mpr ⟨(u, c), List.mem_map.mpr ⟨e, he, ?_⟩, ?_⟩
      · rw [if_pos (by simpa using heu)]
      · simp [← heu, hw']
    · refine List.any_eq_true.mpr ⟨e, List.mem_map.mpr ⟨e, he, ?_⟩, by simpa using hw'⟩
      rw [if_neg (by simpa using heu)]
  · rw [if_neg h]
    exact List.any_eq_true.mpr ⟨e, List.mem_append.mpr (Or.inl he), by simpa using hw'⟩

theorem collectLoop_all_err :
    ∀ (rs : List ScrapeResult) (acc : List (Str × Str)),
      (∀ r ∈ rs, isErrR r = true) → collectLoop acc rs = acc := by
  intro rs
  induction rs with
  | nil => intro acc _; rfl
  | cons r rest ih =>
    intro acc h
    cases r with
    | okR u c =>
      have := h (ScrapeResult.okR u c) (List.mem_cons_self _ _)
      simp [isErrR] at this
    | errR u e =>
      rw [collectLoop]
      exact ih acc (fun x hx => h x (List.mem_cons_of_mem _ hx))

theorem collectLoop_keeps_key :
    ∀ (rs : List ScrapeResult) (acc : List (Str × Str)) (u : Str),
      acc.any (fun e => e.1 = u) = true →
      (collectLoop acc rs).any (fun e => e.1 = u) = true := by
  intro rs
  induction rs with
  | nil => intro acc u h; exact h
  | cons r rest ih =>
    intro acc u h
    cases r with
    | okR w c => exact ih _ u (insertContent_preserves_key h w c)
    | errR _ _ => exact ih acc u h

theorem collectLoop_mem_ok :
    ∀ (rs : List ScrapeResult) (acc : List (Str × Str)) (u c : Str),
      ScrapeResult.okR u c ∈ rs →
      (collectLoop acc rs).any (fun e => e.1 = u) = true := by
  intro rs
  induction rs with
  | nil => intro acc u c h; cases h
  | cons r rest ih =>
    intro acc u c h
    rcases List.mem_cons.mp h with rfl | h2
    · exact collectLoop_keeps_key rest _ u (insertContent_has_key acc u c)
    · cases r with
      | okR w d => exact ih _ u c h2
      | errR _ _ => exact ih acc u c h2

/-- C8 amended: the fan-in of ScrapeSites keeps exactly the successful
results — a run where at least one URL succeeds produces a bundle
containing that URL despite the other failures, and a run where every
URL fails produces an empty bundle — but the error returned to the
caller is nil in every case, not a failure signal. -/
theorem scrapeSites_failure_behavior :
    (∀ results : List ScrapeResult, (scrapeSitesCollect results).2 = none)
    ∧ (∀ results : List ScrapeResult, (∀ r ∈ results, isErrR r = true) →
        (scrapeSitesCollect results).1 = [])
    ∧ (∀ (results : List ScrapeResult) (u c : Str),
        ScrapeResult.okR u c ∈ results →
        (scrapeSitesCollect results).1.any (fun e => e.1 = u) = true) :=
  ⟨fun _ => rfl,
   fun results h => collectLoop_all_err results [] h,
   fun results u c h => collectLoop_mem_ok results [] u c h⟩

/-- Witness for C8 at concrete result lists. -/
theorem scrapeSites_failure_behavior_witness :
    (scrapeSitesCollect [ScrapeResult.errR (str "http://a") (str "e")]).1 = [] ∧
    (scrapeSitesCollect [ScrapeResult.okR (str "http://a") (str "C"),
      ScrapeResult.errR (str "http://b") (str "e")]).1.any
        (fun e => e.1 = str "http://a") = true :=
  ⟨scrapeSites_failure_behavior.2.1 _ (by decide),
   scrapeSites_failure_behavior.2.2 _ (str "http://a") (str "C") (by decide)⟩

/-- C8 counterexample: with every URL failed the run produces an empty
bundle, as the claim states, but the error component returned to the
caller is nil — a success signal, not the claimed non-zero-equivalent
failure. -/
theorem all_failed_signals_success :
    (scrapeSitesCollect [ScrapeResult.errR (str "http://a") (str "e"),
      ScrapeResult.errR (str "http://b") (str "e")]).1 = [] ∧
    (scrapeSitesCollect [ScrapeResult.errR (str "http://a") (str "e"),
      ScrapeResult.errR (str "http://b") (str "e")]).2 = none := by decide

/-! Separate-mode SaveToFiles (claim C9). -/

/-- Go's [a-zA-Z0-9] character class. -/
def isAlnumGo (c : Char) : Bool :=
  (97 ≤ c.toNat && c.toNat ≤ 122) || (65 ≤ c.toNat && c.toNat ≤ 90) ||
  (48 ≤ c.toNat && c.toNat ≤ 57)

/-- regexp.ReplaceAllString with a pattern matching maximal runs of
characters outside `keep`, each run replaced by the single character
`rep` (leftmost-longest regexp semantics). The flag records whether the
scan is inside a run already replaced. -/
def collapseRunsBy (keep : Char → Bool) (rep : Char) : Bool → Str → Str
  | _, [] => []
  | inRun, c :: rest =>
    if keep c then c :: collapseRunsBy keep rep false rest
    else if inRun then collapseRunsBy keep rep true rest
    else rep :: collapseRunsBy keep rep true rest

/-- NormalizePathForFilename (internal/scraper/scraper.go lines 410-423):
trim slashes, replace each run of non-alphanumerics with a dash, trim
dashes, collapse dash runs. -/
def NormalizePathForFilename (urlPath : Str) : Str :=
  collapseRunsBy (fun c => c ≠ '-') '-'
    false (trimBy (fun c => c = '-')
      (collapseRunsBy isAlnumGo '-' false (trimBy (fun c => c = '/') urlPath)))

/-- First allowed path of the site that prefixes the URL path (the
matchingPath loop, internal/scraper/scraper.go lines 349-355); empty
when none matches, which the caller treats as unattributable. -/
def firstAllowed (path : Str) : List Str → Str
  | [] => []
  | p :: ps => if startsWith path p then p else firstAllowed path ps

/-- Write into the inner path-to-content map: same-path contents merge
with a blank line (internal/scraper/scraper.go lines 366-371). -/
def addPath (inner : List (Str × Str)) (p c : Str) : List (Str × Str) :=
  if inner.any (fun e => e.1 = p) then
    inner.map (fun e => if e.1 = p then (p, e.2 ++ str "\n\n" ++ c) else e)
  else inner ++ [(p, c)]

/-- Write into contentBySitePath under the site key. -/
def addGrouped (acc : List (Str × List (Str × Str))) (k p c : Str) :
    List (Str × List (Str × Str)) :=
  if acc.any (fun e => e.1 = k) then
    acc.map (fun e => if e.1 = k then (k, addPath e.2 p c) else e)
  else acc ++ [(k, [(p, c)])]

/-- Grouping loop of SaveToFiles separate mode (internal/scraper/scraper.go
lines 340-372): parse each URL (skipping failures), find the first
matching allowed path (skipping entries with none), and merge the
content under the site key BaseURL-FileNamePrefix. -/
def groupLoop (acc : List (Str × List (Str × Str))) :
    List (Str × Str × SiteConfig) → List (Str × List (Str × Str))
  | [] => acc
  | (u, c, s) :: rest =>
    match parseURL u with
    | none => groupLoop acc rest
    | some pu =>
      if firstAllowed pu.path s.AllowedPaths = [] then groupLoop acc rest
      else groupLoop
        (addGrouped acc (s.BaseURL ++ str "-" ++ s.FileNamePrefix)
          (firstAllowed pu.path s.AllowedPaths) c) rest

/-- strings.SplitN(siteKey, "-", 2)[1]: everything after the first dash
(internal/scraper/scraper.go lines 377-378). -/
def afterFirstDash (k : Str) : Str := (k.dropWhile (fun c => c ≠ '-')).drop 1

/-- Write loop over one site's path-content map (internal/scraper/scraper.go
lines 376-401): default the prefix to doc and the normalized path to
index, skip whitespace-only content, and write
output/prefix-normalizedPath.md otherwise. Returns (filename, content)
pairs in place of filesystem writes. -/
def writeInnerFiles (prefixStr : Str) : List (Str × Str) → List (Str × Str)
  | [] => []
  | (p, content) :: rest =>
    if trimSpace content = [] then writeInnerFiles prefixStr rest
    else
      (str "output/" ++ (if prefixStr = [] then str "doc" else prefixStr) ++
        str "-" ++
        (if NormalizePathForFilename p = [] then str "index"
         else NormalizePathForFilename p) ++ str ".md",
       content) :: writeInnerFiles prefixStr rest

/-- Outer write loop over contentBySitePath
(internal/scraper/scraper.go lines 375-402). -/
def writeFilesLoop : List (Str × List (Str × Str)) → List (Str × Str)
  | [] => []
  | (k, inner) :: rest => writeInnerFiles (afterFirstDash k) inner ++ writeFilesLoop rest

/-- Separate-mode branch of SaveToFiles (internal/scraper/scraper.go
lines 334-403) on the scraped-content map with one iteration order. -/
def SaveToFilesSeparate (entries : List (Str × Str × SiteConfig)) : List (Str × Str) :=
  writeFilesLoop (groupLoop [] entries)

/-- An entry is attributable when its URL parses and its path has a
matching allowed path. -/
def attributableB (e : Str × Str × SiteConfig) : Bool :=
  match parseURL e.1 with
  | none => false
  | some pu => if firstAllowed pu.path e.2.2.AllowedPaths = [] then false else true

theorem groupLoop_filter (acc : List (Str × List (Str × Str))) :
    ∀ entries : List (Str × Str × SiteConfig),
      groupLoop acc entries = groupLoop acc (entries.filter attributableB) := by
  intro entries
  induction entries generalizing acc with
  | nil => rfl
  | cons e rest ih =>
    rcases e with ⟨u, c, s⟩
    cases hp : parseURL u with
    | none =>
      have hattr : attributableB (u, c, s) = false := by
        rw [attributableB, hp]
      rw [groupLoop]
      simp only [hp]
      rw [List.filter_cons_of_neg (by simp [hattr])]
      exact ih acc
    | some pu =>
      by_cases hfa : firstAllowed pu.path s.AllowedPaths = []
      · have hattr : attributableB (u, c, s) = false := by
          rw [attributableB, hp]
          simp [hfa]
        rw [groupLoop]
        simp only [hp]
        rw [if_pos hfa]
        rw [List.filter_cons_of_neg (by simp [hattr])]
        exact ih acc
      · have hattr : attributableB (u, c, s) = true := by
          rw [attributableB, hp]
          simp [hfa]
        rw [groupLoop]
        simp only [hp]
        rw [if_neg hfa]
        rw [List.filter_cons_of_pos (by simp [hattr]), groupLoop]
        simp only [hp]
        rw [if_neg hfa]
        exact ih _

theorem writeInnerFiles_nonblank (prefixStr : Str) :
    ∀ inner : List (Str × Str), ∀ q ∈ writeInnerFiles prefixStr inner,
      ¬ trimSpace q.2 = [] := by
  intro inner
  induction inner with
  | nil => intro q hq; cases hq
  | cons e rest ih =>
    rcases e with ⟨p, content⟩
    intro q hq
    rw [writeInnerFiles] at hq
    by_cases hb : trimSpace content = []
    · rw [if_pos hb] at hq
      exact ih q hq
    · rw [if_neg hb] at hq
      rcases List.mem_cons.mp hq with rfl | hq2
      · exact hb
      · exact ih q hq2

theorem writeFilesLoop_nonblank :
    ∀ groups : List (Str × List (Str × Str)), ∀ q ∈ writeFilesLoop groups,
      ¬ trimSpace q.2 = [] := by
  intro groups
  induction groups with
  | nil => intro q hq; cases hq
  | cons g rest ih =>
    rcases g with ⟨k, inner⟩
    intro q hq
    rw [writeFilesLoop] at hq
    rcases List.mem_append.mp hq with hq | hq
    · exact writeInnerFiles_nonblank (afterFirstDash k) inner q hq
    · exact ih q hq

/-- C9: separate-mode SaveToFiles writes only non-blank, attributable
content: entries whose URL parses to a path matching no allowed-path
prefix of their site (or does not parse) are silently omitted — the
output is unchanged when they are filtered away — and every written file
has non-whitespace content, so a group whose combined content is blank
yields no file. -/
theorem saveToFiles_separate_policy :
    (∀ entries : List (Str × Str × SiteConfig),
      SaveToFilesSeparate entries =
        SaveToFilesSeparate (entries.filter attributableB))
    ∧ (∀ (entries : List (Str × Str × SiteConfig)) (q : Str × Str),
        q ∈ SaveToFilesSeparate entries → ¬ trimSpace q.2 = []) :=
  ⟨fun entries => by rw [SaveToFilesSeparate, SaveToFilesSeparate, ← groupLoop_filter],
   fun entries q hq => writeFilesLoop_nonblank _ q hq⟩

/-- Site used in the C9 witness. -/
def siteC9 : SiteConfig :=
  ⟨str "http://h", str "main", [], 0, [str "/a"], [], [], str "pre", [], []⟩

/-- Witness for C9 at a concrete run: one attributable entry with
non-blank content, one entry on an unmatched path and one whitespace-only
entry; the written file is the attributable non-blank one. -/
theorem saveToFiles_separate_policy_witness :
    SaveToFilesSeparate
        [(str "http://h/a/p", str "Hello", siteC9),
         (str "http://h/z", str "Lost", siteC9),
         (str "http://h/a/q", str "  ", siteC9)] =
      [(str "output/pre-a.md", str "Hello\n\n  ")] ∧
    ¬ trimSpace (str "Hello\n\n  ") = [] := by
  constructor
  · decide
  · exact saveToFiles_separate_policy.2
      [(str "http://h/a/p", str "Hello", siteC9),
       (str "http://h/z", str "Lost", siteC9),
       (str "http://h/a/q", str "  ", siteC9)]
      (str "output/pre-a.md", str "Hello\n\n  ") (by decide)

/-! Separate-mode filenames (claim C7). -/

/-- Go's [a-zA-Z0-9-_] character class of sanitizeFilename. -/
def isFileChar (c : Char) : Bool := isAlnumGo c || c = '-' || c = '_'

/-- sanitizeFilename (cmd/web.go lines 278-292):
regexp.MustCompile of the class complement with a + quantifier replaces
each maximal run of disallowed characters by one underscore; then trim
boundary underscores; then the untitled default. The part_011 variant
replaces character by character with strings.Map instead, which differs
on runs. -/
def sanitizeFilename (name : Str) : Str :=
  if trimBy (fun c => c = '_') (collapseRunsBy isFileChar '_' false name) = []
  then str "untitled"
  else trimBy (fun c => c = '_') (collapseRunsBy isFileChar '_' false name)

/-- First index of the pattern inside the string, as strings.Index
(none standing for -1). -/
def indexOfSub (pat : Str) : Str → Option Nat
  | [] => if pat.isPrefixOf [] then some 0 else none
  | c :: rest =>
    if pat.isPrefixOf (c :: rest) then some 0
    else
      match indexOfSub pat rest with
      | none => none
      | some n => some (n + 1)

/-- strings.TrimSuffix(path, a slash): drop one trailing slash. -/
def trimSuffixSlash (p : Str) : Str :=
  if p.getLast? = some '/' then p.dropLast else p

/-- URL fallback of getFilenameFromContent (cmd/web.go lines 261-275):
parse the URL, fail without a host, otherwise sanitize host plus the
path without its trailing slash. -/
def fallbackFromURL (urlStr : Str) : Option Str :=
  match parseURL urlStr with
  | none => none
  | some pu =>
    if pu.host = [] then none
    else
      some (sanitizeFilename
        (pu.host ++ (if pu.path ≠ [] ∧ pu.path ≠ str "/" then trimSuffixSlash pu.path
                     else [])) ++ str ".rollup.md")

/-- getFilenameFromContent (cmd/web.go lines 250-276): when the content
holds a title between the first occurrences of the title tags, in order,
and the trimmed title is non-blank, the file name is the sanitized title
plus .rollup.md; otherwise it derives from the URL. -/
def getFilenameFromContent (content urlStr : Str) : Option Str :=
  match indexOfSub (str "<title>") content, indexOfSub (str "</title>") content with
  | some ts, some te =>
    if te > ts then
      if trimSpace ((content.drop (ts + 7)).take (te - (ts + 7))) ≠ [] then
        some (sanitizeFilename
          (trimSpace ((content.drop (ts + 7)).take (te - (ts + 7)))) ++
          str ".rollup.md")
      else fallbackFromURL urlStr
    else fallbackFromURL urlStr
  | _, _ => fallbackFromURL urlStr

/-- Per-character sanitize following the claim's words: every character
outside [A-Za-z0-9-_] becomes an underscore, boundary underscores are
trimmed, and an empty result becomes untitled. -/
def sanitizePerCharSpec (name : Str) : Str :=
  if trimBy (fun c => c = '_') (name.map (fun c => if isFileChar c then c else '_')) = []
  then str "untitled"
  else trimBy (fun c => c = '_') (name.map (fun c => if isFileChar c then c else '_'))

/-- C7 counterexample: the claim's per-character sanitize maps the page
title Hello, World! (the input of the repository's own
TestSanitizeFilename) to Hello__World, but the code collapses the whole
run comma-space into one underscore and writes Hello_World.rollup.md. -/
theorem sanitize_per_char_counterexample :
    getFilenameFromContent (str "<title>Hello, World!</title>") (str "http://h") =
      some (str "Hello_World.rollup.md") ∧
    sanitizePerCharSpec (str "Hello, World!") ++ str ".rollup.md" =
      str "Hello__World.rollup.md" ∧
    ¬ (str "Hello_World.rollup.md" : Str) = str "Hello__World.rollup.md" := by
  decide

theorem length_dropWhile_le (p : Char → Bool) (l : Str) :
    (l.dropWhile p).length ≤ l.length :=
  (List.dropWhile_suffix p).sublist.length_le

/-- Replace each maximal run of characters outside `keep` with the
single character `rep`, phrased by skipping the run with dropWhile:
the literal reading of the amended claim. -/
def collapseRunsSpec (keep : Char → Bool) (rep : Char) : Str → Str
  | [] => []
  | c :: rest =>
    if keep c then c :: collapseRunsSpec keep rep rest
    else rep :: collapseRunsSpec keep rep (rest.dropWhile (fun d => !keep d))
termination_by s => s.length
decreasing_by
  · simp_wf
  · simp_wf
    have h := length_dropWhile_le (fun d => !keep d) rest
    omega

theorem collapseRunsBy_true_drop (keep : Char → Bool) (rep : Char) :
    ∀ rest : Str, collapseRunsBy keep rep true rest =
      collapseRunsBy keep rep false (rest.dropWhile (fun d => !keep d)) := by
  intro rest
  induction rest with
  | nil => rfl
  | cons c rest ih =>
    cases hk : keep c with
    | true =>
      rw [collapseRunsBy, if_pos hk, List.dropWhile_cons_of_neg (by simp [hk])]
      rw [collapseRunsBy, if_pos hk]
    | false =>
      rw [collapseRunsBy, if_neg (by simp [hk]), if_pos rfl]
      rw [List.dropWhile_cons_of_pos (by simp [hk])]
      exact ih

theorem collapseRunsBy_eq_spec (keep : Char → Bool) (rep : Char) :
    ∀ n : Str, collapseRunsBy keep rep false n = collapseRunsSpec keep rep n := by
  have hmain : ∀ (k : Nat) (n : Str), n.length ≤ k →
      collapseRunsBy keep rep false n = collapseRunsSpec keep rep n := by
    intro k
    induction k with
    | zero =>
      intro n hn
      have hnil : n = [] := List.length_eq_zero.mp (Nat.le_zero.mp hn)
      subst hnil
      simp [collapseRunsBy, collapseRunsSpec]
    | succ k ihk =>
      intro n hn
      cases n with
      | nil => simp [collapseRunsBy, collapseRunsSpec]
      | cons c rest =>
        cases hk : keep c with
        | true =>
          rw [collapseRunsBy, if_pos hk, collapseRunsSpec, if_pos hk]
          rw [ihk rest (by simpa using hn)]
        | false =>
          rw [collapseRunsBy, if_neg (by simp [hk]), if_neg (by simp [hk])]
          rw [collapseRunsSpec, if_neg (by simp [hk])]
          rw [collapseRunsBy_true_drop]
          rw [ihk (rest.dropWhile (fun d => !keep d)) (by
            have h1 := length_dropWhile_le (fun d => !keep d) rest
            have hr : rest.length ≤ k := by simpa using hn
            omega)]
  intro n
  exact hmain n.length n le_rfl

/-- Sanitize following the amended claim's words: replace each maximal
run of characters outside [A-Za-z0-9-_] with a single underscore, trim
boundary underscores, default to untitled when empty. -/
def sanitizeRunsSpec (name : Str) : Str :=
  if trimBy (fun c => c = '_') (collapseRunsSpec isFileChar '_' name) = []
  then str "untitled"
  else trimBy (fun c => c = '_') (collapseRunsSpec isFileChar '_' name)

/-- C7 amended: separate-mode filenames are
sanitizeFilename(title-or-derived-name) plus .rollup.md, where
sanitizeFilename replaces every maximal run of characters outside
[A-Za-z0-9-_] with a single underscore (not each character separately),
trims boundary underscores, and yields untitled when empty; a page
titled Hello World still yields Hello_World.rollup.md. -/
theorem sanitizeFilename_collapses_runs :
    (∀ name : Str, sanitizeFilename name = sanitizeRunsSpec name) ∧
    getFilenameFromContent (str "<title>Hello World</title><body>x</body>")
      (str "http://h") = some (str "Hello_World.rollup.md") := by
  constructor
  · intro name
    rw [sanitizeFilename, sanitizeRunsSpec, collapseRunsBy_eq_spec]
  · decide

end Rollup